import Mathlib

/-!
Verification of the EmmaNeigh Document Signature Processing Engine
(JavaScript implementation in desktop-app/electron/pdf-processor.js).

The JavaScript functions are shallowly embedded as executable Lean
definitions over `List Char` / `String`.  String operations are modelled
at ASCII granularity: `toUpperCase` maps only the letters a-z, the
whitespace class covers the ASCII whitespace characters, and a JS string
of length n is a list of n characters.  All inputs appearing in the
claims and counterexamples are ASCII, where this model and JavaScript
agree exactly.
-/

deriving instance DecidableEq for Except

namespace EmmaNeigh

/- ===================== character primitives ===================== -/

/-- The lower-to-upper letter table of the ASCII fragment of
JavaScript `String.prototype.toUpperCase`. -/
def upPairs : List (Char × Char) :=
  [('a','A'), ('b','B'), ('c','C'), ('d','D'), ('e','E'), ('f','F'), ('g','G'),
   ('h','H'), ('i','I'), ('j','J'), ('k','K'), ('l','L'), ('m','M'), ('n','N'),
   ('o','O'), ('p','P'), ('q','Q'), ('r','R'), ('s','S'), ('t','T'), ('u','U'),
   ('v','V'), ('w','W'), ('x','X'), ('y','Y'), ('z','Z')]

/-- Uppercase one character (ASCII model of `toUpperCase`). -/
def upChar (c : Char) : Char :=
  ((upPairs.find? (fun p => p.1 == c)).map Prod.snd).getD c

/-- Uppercase a character list, as `s.toUpperCase()` does. -/
def upperL (l : List Char) : List Char := l.map upChar

/-- ASCII whitespace, the model of the regex class `\s` and of the
characters removed by `String.prototype.trim`. -/
def isWsChar (c : Char) : Bool :=
  c == ' ' || c == '\t' || c == '\n' || c == '\r' ||
  c == Char.ofNat 11 || c == Char.ofNat 12

/-- Is the head of the list a whitespace character. -/
def headIsWs : List Char → Bool
  | [] => false
  | c :: _ => isWsChar c

/- ===================== generic string helpers ===================== -/

/-- Model of JavaScript `String.prototype.split` with a single-character
class: cut at every separator character, keeping empty fields. -/
def splitBy (p : Char → Bool) : List Char → List (List Char)
  | [] => [[]]
  | c :: cs =>
    match splitBy p cs with
    | [] => [[]]
    | w :: ws => if p c then [] :: w :: ws else (c :: w) :: ws

/-- Contiguous-sublist test, the model of `String.prototype.includes`. -/
def containsSub (pat : List Char) : List Char → Bool
  | [] => pat.isEmpty
  | c :: rest => List.isPrefixOf pat (c :: rest) || containsSub pat rest

/-- Remove leading whitespace. -/
def trimLeftL (l : List Char) : List Char := l.dropWhile isWsChar

/-- Remove trailing whitespace. -/
def trimRightL : List Char → List Char
  | [] => []
  | c :: cs =>
    match trimRightL cs with
    | [] => if isWsChar c then [] else [c]
    | w :: ws => c :: w :: ws

/-- Model of `String.prototype.trim`: remove whitespace at both ends. -/
def trimL (l : List Char) : List Char := trimRightL (trimLeftL l)

/-- Collapse every maximal whitespace run to a single space; the model of
`replace(/\s+/g, ' ')`.  The flag records whether the previous character
belonged to a whitespace run already replaced. -/
def collapseWs : Bool → List Char → List Char
  | _, [] => []
  | prevWs, c :: cs =>
    if isWsChar c then
      if prevWs then collapseWs true cs else ' ' :: collapseWs true cs
    else c :: collapseWs false cs

/- ===================== normalizeName ===================== -/

/-- The character filter of the punctuation-stripping replace of the
source: keep everything except period and comma. -/
def notPunct (c : Char) : Bool := !(c == '.' || c == ',')

/-- Function `normalizeName` on character lists, translated from pdf-processor.js:
uppercase, strip periods and commas, collapse whitespace runs to single
spaces, trim. -/
def normalizeNameL (l : List Char) : List Char :=
  trimRightL (trimLeftL (collapseWs false ((upperL l).filter notPunct)))

/-- Function `normalizeName` from pdf-processor.js. -/
def normalizeName (s : String) : String := ⟨normalizeNameL s.data⟩

/- ===================== isProbablePerson ===================== -/

/-- The entity-term list of `isProbablePerson` in pdf-processor.js. -/
def entityTerms : List (List Char) :=
  ["LLC".data, "INC".data, "CORP".data, "CORPORATION".data, "LP".data,
   "LLP".data, "TRUST".data, "HOLDINGS".data, "PARTNERS".data,
   "FUND".data, "CAPITAL".data]

/-- The token list of `name.split(' ').filter(w => w.length > 0)`:
split on the space character, drop empty fields. -/
def spaceTokens (l : List Char) : List (List Char) :=
  (splitBy (fun c => c == ' ') l).filter (fun w => !w.isEmpty)

/-- Function `isProbablePerson` on character lists, translated from
pdf-processor.js: reject if the uppercased input contains an entity term;
otherwise accept iff the space-separated word count is between 2 and 4. -/
def isProbablePersonL (l : List Char) : Bool :=
  if entityTerms.any (fun t => containsSub t (upperL l)) then false
  else
    let words := spaceTokens l
    2 ≤ words.length && words.length ≤ 4

/-- Function `isProbablePerson` from pdf-processor.js. -/
def isProbablePerson (s : String) : Bool := isProbablePersonL s.data

/- ===================== extractSignersFromText ===================== -/

/-- Is the character a line separator (the regex class `[\n\r]`). -/
def isNLChar (c : Char) : Bool := c == '\n' || c == '\r'

/-- The line splitting of the source, `text.split` on the regex `[\n\r]+`
followed by per-line trim and the dropping of empty lines: the trimmed,
non-empty lines of the page text. -/
def splitLines (text : List Char) : List (List Char) :=
  ((splitBy isNLChar text).map trimL).filter (fun l => !l.isEmpty)

/-- The anchor test of the signer loop: the uppercased line contains
`BY:` or `BY :` as a substring. -/
def isAnchorLine (l : List Char) : Bool :=
  containsSub "BY:".data (upperL l) || containsSub "BY :".data (upperL l)

/-- The Tier-1 line test: the uppercased candidate line starts with
`NAME:` or `NAME :`. -/
def isNameLine (l : List Char) : Bool :=
  List.isPrefixOf "NAME:".data (upperL l) || List.isPrefixOf "NAME :".data (upperL l)

/-- Index 1 of `candidate.split` at the colon: the field between the first and the second
colon (empty when the line has no colon, a case excluded by
`isNameLine`). -/
def colonField1 (l : List Char) : List Char :=
  match splitBy (fun c => c == ':') l with
  | _ :: f :: _ => f
  | _ => []

/-- The Tier-1 scan of the lines below a `BY:` anchor, translated from
the first inner loop of `extractSignersFromText`: walk forward to the
first `NAME:` line and stop there (`break`), returning
`some (some signer)` when the candidate after the colon is accepted,
`some none` when a `NAME:` line was hit but its candidate rejected, and
`none` when the window holds no `NAME:` line. -/
def tier1Hit : List (List Char) → Option (Option (List Char))
  | [] => none
  | l :: rest =>
    if isNameLine l then
      some (if 2 < (trimL (colonField1 l)).length
            then some (normalizeNameL (trimL (colonField1 l))) else none)
    else tier1Hit rest

/-- The Tier-2 scan, translated from the second inner loop of
`extractSignersFromText`: the first line whose normalization is longer
than 3 characters and passes `isProbablePerson`. -/
def tier2Hit : List (List Char) → Option (List Char)
  | [] => none
  | l :: rest =>
    if 3 < (normalizeNameL l).length && isProbablePersonL (normalizeNameL l)
    then some (normalizeNameL l)
    else tier2Hit rest

/-- The signers contributed by one `BY:` anchor, given the window of
following lines: Tier 2 runs exactly when Tier 1 set no `foundName`. -/
def anchorSigners (w : List (List Char)) : List (List Char) :=
  match tier1Hit w with
  | some (some n) => [n]
  | some none => match tier2Hit w with | some c => [c] | none => []
  | none => match tier2Hit w with | some c => [c] | none => []

/-- The outer loop of `extractSignersFromText`: at each anchor line, scan
the window of the next up to 6 lines (shorter at end of page). -/
def scanLines : List (List Char) → List (List Char)
  | [] => []
  | l :: rest =>
    (if isAnchorLine l then anchorSigners (rest.take 6) else []) ++ scanLines rest

/-- JavaScript `Set` insertion: keep the first occurrence, in order. -/
def insertUnique (acc : List (List Char)) (x : List Char) : List (List Char) :=
  if x ∈ acc then acc else acc ++ [x]

/-- Conversion `Array.from(set)`: the added names in first-insertion order. -/
def setOrder (l : List (List Char)) : List (List Char) := l.foldl insertUnique []

/-- Function `extractSignersFromText` on character lists. -/
def extractSignersL (text : List Char) : List (List Char) :=
  setOrder (scanLines (splitLines text))

/-- Function `extractSignersFromText` from pdf-processor.js. -/
def extractSignersFromText (s : String) : List String :=
  (extractSignersL s.data).map (fun l => ⟨l⟩)

/- ===================== processSignaturePackets ===================== -/

/-- One input PDF as the processor sees it: its file name, its page
count (`pdfDoc.getPageCount()`), and the text that
`extractTextFromPdfBuffer` recovers from its content streams.  The text
is per document, not per page, exactly as in the source. -/
structure SrcDoc where
  name : String
  pageCount : Nat
  text : String
deriving DecidableEq

/-- The page map of one signer, document name to page list,
insertion-ordered. -/
abbrev DocPages := List (String × List Nat)

/-- The map `signerDocPages` from signer name to its document pages,
insertion-ordered as JavaScript object keys are. -/
abbrev SignerMap := List (String × DocPages)

/-- JavaScript object update: an existing key keeps its position, a new
key is appended. -/
def updateAssoc {β : Type} (k : String) (init : β) (f : β → β) :
    List (String × β) → List (String × β)
  | [] => [(k, f init)]
  | (k2, v) :: rest =>
    if k2 = k then (k2, f v) :: rest else (k2, v) :: updateAssoc k init f rest

/-- The guarded push of the source: append the page number when it is
not yet listed. -/
def pushPageUnique (ps : List Nat) (p : Nat) : List Nat :=
  if p ∈ ps then ps else ps ++ [p]

/-- The page loop `for (let p = 1; p <= pageCount; p++)`. -/
def addAllPages (pageCount : Nat) (ps : List Nat) : List Nat :=
  (List.range' 1 pageCount).foldl pushPageUnique ps

/-- The per-document body of the scanning loop of
`processSignaturePackets`: find the signers of the document text and
associate every page of the document with each of them. -/
def scanDoc (m : SignerMap) (d : SrcDoc) : SignerMap :=
  let signers := extractSignersFromText d.text
  if signers.isEmpty then m
  else
    signers.foldl
      (fun acc s =>
        updateAssoc s [] (updateAssoc d.name [] (addAllPages d.pageCount)) acc)
      m

/-- One produced signature packet: the signer, the output file name, and
the copied pages as (source document, 1-based page) references in copy
order. -/
structure Packet where
  name : String
  fileName : String
  pages : List (String × Nat)
deriving DecidableEq

/-- The packet of one signer entry: for each associated document in
insertion order, copy its listed pages in order. -/
def packetOf (entry : String × DocPages) : Packet :=
  { name := entry.1,
    fileName := "signature_packet - " ++ entry.1 ++ ".pdf",
    pages := (entry.2.map (fun dp => dp.2.map (fun p => (dp.1, p)))).flatten }

/-- Function `processSignaturePackets` from pdf-processor.js, over the ordered
list of input PDF files (file reading, progress events and the writing
of the packet files are outside the model; a packet file is written for
exactly the packets of the returned list, and none on the error paths,
which are reached before any write). -/
def processSignaturePackets (docs : List SrcDoc) : Except String (List Packet) :=
  if docs.isEmpty then
    Except.error "No PDF files found in the selected folder."
  else
    let signerDocPages := docs.foldl scanDoc []
    if signerDocPages.isEmpty then
      Except.error "No signature pages detected. Make sure PDFs contain \"BY:\" and \"Name:\" fields."
    else
      Except.ok ((signerDocPages.map packetOf).filter (fun p => !p.pages.isEmpty))

/- ===================== createExecutionVersion ===================== -/

/-- A PDF given to `createExecutionVersion`: its pages and whether its
content is password-encrypted. -/
structure SrcPdf (α : Type) where
  pages : List α
  encrypted : Bool
deriving DecidableEq

/-- Model of pdf-lib `PDFDocument.load(buffer, { ignoreEncryption })`:
the load rejects an encrypted document exactly when `ignoreEncryption`
is false (pdf-lib raises `EncryptedPDFError` in that case and in no
other case relevant here). -/
def loadPdf {α : Type} (d : SrcPdf α) (ignoreEncryption : Bool) :
    Except String (List α) :=
  if d.encrypted && !ignoreEncryption then
    Except.error "Input document to PDFDocument.load is encrypted."
  else Except.ok d.pages

/-- Model of `resultPdf.copyPages(src, indices)` for the index lists
`Array.from({length: n}, (_, i) => i + start)` used by the source. -/
def copyRange {α : Type} (l : List α) (start len : Nat) : List α :=
  (List.range' start len).filterMap (fun i => l[i]?)

/-- The result record of `createExecutionVersion`. -/
structure ExecResult (α : Type) where
  pages : List α
  originalPages : Nat
  signedPages : Nat
  totalPages : Nat
deriving DecidableEq

/-- The page-assembly part of `createExecutionVersion`, translated from
pdf-processor.js: clamp the insertion point, then copy the three page
blocks (the two conditionals guard the `insertPoint > 0` and
`insertPoint < originalPageCount` copy blocks of the source). -/
def spliceCore {α : Type} (originalPages signedPages : List α)
    (insertAfter : Int) : List α :=
  let originalPageCount := originalPages.length
  let insertPoint : Int :=
    if insertAfter < 0 ∨ (originalPageCount : Int) ≤ insertAfter
    then (originalPageCount : Int) else insertAfter
  let beforePages :=
    if 0 < insertPoint then copyRange originalPages 0 insertPoint.toNat else []
  let withSigned := beforePages ++ signedPages
  if insertPoint < (originalPageCount : Int) then
    withSigned ++
      copyRange originalPages insertPoint.toNat
        (originalPageCount - insertPoint.toNat)
  else withSigned

/-- Function `createExecutionVersion` from pdf-processor.js: load both documents
with `ignoreEncryption: true`, splice, and report the page counts (file
naming and saving are outside the model). -/
def createExecutionVersion {α : Type} (original signed : SrcPdf α)
    (insertAfter : Int) : Except String (ExecResult α) := do
  let originalPages ← loadPdf original true
  let signedPages ← loadPdf signed true
  let result := spliceCore originalPages signedPages insertAfter
  Except.ok
    { pages := result,
      originalPages := originalPages.length,
      signedPages := signedPages.length,
      totalPages := result.length }

/- ===================== the Page Classifier (spec-modelled) ===================== -/

/-- Modelled from the spec: the keyword set of the Page Classifier
(spec section 4.2).  The classifier itself belongs to the Python engine
of this repository, which is not part of the JavaScript processor; its
keyword list and two-keyword rule are those documented in
ARCHITECTURE.md. -/
def signatureKeywords : List String :=
  ["IN WITNESS WHEREOF", "BY:", "NAME:", "TITLE:", "DATE:", "SIGNATURE",
   "________________"]

/-- Modelled from the spec: the number of distinct keywords present
(case-insensitively) in a page text. -/
def keywordHits (text : String) : Nat :=
  (signatureKeywords.filter (fun k => containsSub k.data (upperL text.data))).length

/-- Modelled from the spec: a page is classified `signature` iff at
least two distinct keywords are present. -/
def isSignaturePage (text : String) : Bool := 2 ≤ keywordHits text

/- ===================== claim-side definitions ===================== -/

/-- The insertion point as the spec states it: the caller value itself,
clamped to the original page count when negative or at least the
original page count. -/
def clampIP (k : Int) (n : Nat) : Nat :=
  if k < 0 ∨ (n : Int) ≤ k then n else k.toNat

/-- The Tier-1 acceptance of one `NAME:` line, stated directly: the
candidate is the text between the first and second colon, trimmed, and
it is accepted (normalized) exactly when longer than 2 characters. -/
def acceptName (l : List Char) : Option (List Char) :=
  if 2 < (trimL (colonField1 l)).length
  then some (normalizeNameL (trimL (colonField1 l))) else none

/-- The Tier-2 acceptance of one window line, stated directly: the
normalized line is taken exactly when longer than 3 characters and
passing the probable-person test. -/
def tier2Accept (l : List Char) : Option (List Char) :=
  if 3 < (normalizeNameL l).length && isProbablePersonL (normalizeNameL l)
  then some (normalizeNameL l) else none

/-- Whitespace-split non-empty tokens, the word count the spec speaks
about for the probable-person test. -/
def wsTokens (l : List Char) : List (List Char) :=
  (splitBy isWsChar l).filter (fun w => !w.isEmpty)

/- ===================== helper lemmas: copyRange and splicing ===================== -/

lemma drop_eq_cons_of_lt {α : Type} :
    ∀ (l : List α) (i : Nat) (h : i < l.length), l.drop i = l[i] :: l.drop (i + 1)
  | _ :: _, 0, _ => rfl
  | _ :: l, i + 1, h => drop_eq_cons_of_lt l i (Nat.lt_of_succ_lt_succ h)

lemma copyRange_eq {α : Type} :
    ∀ (n s : Nat) (l : List α), s + n ≤ l.length →
      copyRange l s n = (l.drop s).take n := by
  intro n
  induction n with
  | zero => intro s l _; simp [copyRange, List.range']
  | succ n ih =>
    intro s l h
    have hs : s < l.length := by omega
    have : l[s]? = some l[s] := List.getElem?_eq_getElem hs
    rw [copyRange, List.range', List.filterMap_cons, this]
    rw [drop_eq_cons_of_lt l s hs, List.take_succ_cons]
    have := ih (s + 1) l (by omega)
    rw [copyRange] at this
    rw [this]

lemma clampIP_le (k : Int) (n : Nat) : clampIP k n ≤ n := by
  unfold clampIP; split <;> omega

/-- Lemma: `createExecutionVersion` never fails (both loads pass
`ignoreEncryption: true`) and returns the spliced pages with their
count. -/
lemma execVersion_eq {α : Type} (orig signed : List α) (e1 e2 : Bool) (k : Int) :
    createExecutionVersion ⟨orig, e1⟩ ⟨signed, e2⟩ k =
      Except.ok
        { pages := spliceCore orig signed k,
          originalPages := orig.length,
          signedPages := signed.length,
          totalPages := (spliceCore orig signed k).length } := by
  cases e1 <;> cases e2 <;> rfl

/-- The splice is the clamped take-append-drop decomposition the spec
states. -/
lemma spliceCore_eq {α : Type} (orig signed : List α) (k : Int) :
    spliceCore orig signed k =
      orig.take (clampIP k orig.length) ++ signed ++
        orig.drop (clampIP k orig.length) := by
  show (let originalPageCount := orig.length;
    let insertPoint : Int :=
      if k < 0 ∨ (originalPageCount : Int) ≤ k then (originalPageCount : Int) else k;
    let beforePages := if 0 < insertPoint then copyRange orig 0 insertPoint.toNat else [];
    let withSigned := beforePages ++ signed;
    if insertPoint < (originalPageCount : Int) then
      withSigned ++ copyRange orig insertPoint.toNat (originalPageCount - insertPoint.toNat)
    else withSigned) = _
  simp only []
  by_cases hc : k < 0 ∨ (orig.length : Int) ≤ k
  · rw [if_pos hc]
    have hip : clampIP k orig.length = orig.length := by
      unfold clampIP; rw [if_pos hc]
    rw [hip]
    by_cases h0 : orig.length = 0
    · have : orig = [] := List.length_eq_zero.mp h0
      subst this
      simp
    · rw [if_pos (by omega : (0 : Int) < (orig.length : Int))]
      rw [if_neg (by omega : ¬ ((orig.length : Int) < (orig.length : Int)))]
      rw [Int.toNat_natCast]
      rw [copyRange_eq orig.length 0 orig (by omega)]
      simp
  · have hk0 : (0 : Int) ≤ k := by omega
    have hkn : k < (orig.length : Int) := by omega
    have hlt : k.toNat < orig.length := by omega
    rw [if_neg hc]
    have hip : clampIP k orig.length = k.toNat := by
      unfold clampIP; rw [if_neg hc]
    rw [hip]
    rw [if_pos (by omega : k < (orig.length : Int))]
    rw [copyRange_eq (orig.length - k.toNat) k.toNat orig (by omega)]
    have hdl : (orig.drop k.toNat).take (orig.length - k.toNat) = orig.drop k.toNat := by
      have : orig.length - k.toNat = (orig.drop k.toNat).length := by
        rw [List.length_drop]
      rw [this, List.take_length]
    rw [hdl]
    by_cases hk : (0 : Int) < k
    · rw [if_pos hk]
      rw [copyRange_eq k.toNat 0 orig (by omega)]
      simp
    · have : k = 0 := by omega
      subst this
      simp

/- ===================== claims C2, C3, C9 ===================== -/

/-- C2: for every original document, every signed document, and every
integer insertAfter value (negative and out-of-range included),
`createExecutionVersion` produces an output with exactly P + S pages,
and the `totalPages` field of its result equals P + S. -/
theorem c2_total_pages_invariant {α : Type} (original signed : SrcPdf α) (k : Int) :
    ∃ r, createExecutionVersion original signed k = Except.ok r ∧
      r.pages.length = original.pages.length + signed.pages.length ∧
      r.totalPages = original.pages.length + signed.pages.length := by
  obtain ⟨op, oe⟩ := original
  obtain ⟨sp, se⟩ := signed
  refine ⟨_, execVersion_eq op sp oe se k, ?_, ?_⟩ <;>
  · show (spliceCore op sp k).length = _
    rw [spliceCore_eq]
    have h1 : clampIP k op.length ≤ op.length := clampIP_le k op.length
    simp only [List.length_append, List.length_take, List.length_drop]
    omega

/-- C3: `createExecutionVersion` builds its output as original pages
before the insertion point, then all signed pages in order, then the
remaining original pages, where the insertion point is the caller value
clamped (by `clampIP`, stated from the spec) to append-at-end whenever
it is negative or at least the original page count — and no error is
raised for any insertAfter value. -/
theorem c3_splice_structure {α : Type} (original signed : SrcPdf α) (k : Int) :
    ∃ r, createExecutionVersion original signed k = Except.ok r ∧
      r.pages = original.pages.take (clampIP k original.pages.length) ++
                signed.pages ++
                original.pages.drop (clampIP k original.pages.length) := by
  obtain ⟨op, oe⟩ := original
  obtain ⟨sp, se⟩ := signed
  exact ⟨_, execVersion_eq op sp oe se k, spliceCore_eq op sp k⟩

/-- C9 (code_bug evidence): a password-encrypted signed document does
not make the execution-version job fail — both loads pass
`ignoreEncryption: true`, so the encrypted document is accepted and the
job completes successfully.  The claimed distinct fatal error kind does
not exist in this implementation. -/
theorem c9_encrypted_signed_succeeds :
    createExecutionVersion (⟨[1, 2, 3], false⟩ : SrcPdf Nat) ⟨[4], true⟩ 1 =
      Except.ok { pages := [1, 4, 2, 3], originalPages := 3,
                  signedPages := 1, totalPages := 4 } ∧
    loadPdf (⟨[4], true⟩ : SrcPdf Nat) true = Except.ok [4] := by
  exact ⟨rfl, rfl⟩

/- ===================== claim C4 ===================== -/

/-- C4 (code_bug evidence): the JavaScript processor has no page
classifier.  The text `BY:` followed by `John Smith` contains exactly
one keyword of the classifier set, so under the claim it is not a
signature page and must contribute no signers; `extractSignersFromText`
nevertheless extracts JOHN SMITH from it. -/
theorem c4_no_classifier_gate :
    keywordHits "BY:\nJohn Smith" = 1 ∧
    isSignaturePage "BY:\nJohn Smith" = false ∧
    extractSignersFromText "BY:\nJohn Smith" = ["JOHN SMITH"] := by
  refine ⟨by decide, by decide, by decide⟩

/- ===================== claim C8 ===================== -/

lemma scanDoc_no_signers (m : SignerMap) (d : SrcDoc)
    (h : extractSignersFromText d.text = []) : scanDoc m d = m := by
  unfold scanDoc
  rw [h]
  rfl

lemma foldl_scanDoc_no_signers :
    ∀ (docs : List SrcDoc) (m : SignerMap),
      (∀ d ∈ docs, extractSignersFromText d.text = []) →
      docs.foldl scanDoc m = m := by
  intro docs
  induction docs with
  | nil => intro m _; rfl
  | cons d ds ih =>
    intro m h
    rw [List.foldl_cons, scanDoc_no_signers m d (h d (by simp))]
    exact ih m (fun x hx => h x (by simp [hx]))

/-- C8: if no signers are detected across all input documents,
`processSignaturePackets` terminates with an error; in particular it
never reaches the packet-building stage, so no packet files are written
(the error paths of the source precede every packet write). -/
theorem c8_no_signers_means_error (docs : List SrcDoc)
    (h : ∀ d ∈ docs, extractSignersFromText d.text = []) :
    ∃ e, processSignaturePackets docs = Except.error e := by
  unfold processSignaturePackets
  cases docs with
  | nil => exact ⟨_, rfl⟩
  | cons d ds =>
    rw [if_neg (by simp)]
    rw [foldl_scanDoc_no_signers (d :: ds) [] h]
    exact ⟨_, rfl⟩

/-- Witness for C8 at a concrete input: a single three-page document
whose text holds no signature block. -/
theorem c8_no_signers_means_error_witness :
    (∀ d ∈ ([⟨"a.pdf", 3, "hello world"⟩] : List SrcDoc),
      extractSignersFromText d.text = []) ∧
    ∃ e, processSignaturePackets [⟨"a.pdf", 3, "hello world"⟩] = Except.error e :=
  ⟨by decide, c8_no_signers_means_error [⟨"a.pdf", 3, "hello world"⟩] (by decide)⟩

/- ===================== claim C1 ===================== -/

/-- The scenario text of C1: a standard signature block signed by John
Smith (two classifier keywords are present, so the page is genuinely a
signature page). -/
def c1SigText : String := "IN WITNESS WHEREOF\nBY: ____________\nName: John Smith\nTitle: CEO"

/-- The 100-page credit agreement of the C1 scenario. -/
def c1CreditAgreement : SrcDoc := ⟨"CreditAgreement.pdf", 100, c1SigText⟩

/-- The 20-page guaranty of the C1 scenario. -/
def c1Guaranty : SrcDoc := ⟨"Guaranty.pdf", 20, c1SigText⟩

set_option maxRecDepth 4000 in
/-- C1 (code_bug evidence): on the scenario run the processor produces
one packet for JOHN SMITH with the correct name and file name, but the
packet contains every page of both documents — all 100 pages of the
credit agreement followed by all 20 pages of the guaranty, 120 pages in
total — not the 2 referenced signature pages, because the source
associates the whole page range of every document in which a signer was
found. -/
theorem c1_packet_holds_every_page :
    processSignaturePackets [c1CreditAgreement, c1Guaranty] =
      Except.ok [{ name := "JOHN SMITH",
                   fileName := "signature_packet - JOHN SMITH.pdf",
                   pages := (List.range' 1 100).map (fun p => ("CreditAgreement.pdf", p)) ++
                            (List.range' 1 20).map (fun p => ("Guaranty.pdf", p)) }] ∧
    ((List.range' 1 100).map (fun p => (("CreditAgreement.pdf" : String), p)) ++
     (List.range' 1 20).map (fun p => (("Guaranty.pdf" : String), p))).length = 120 := by
  refine ⟨by decide, by decide⟩

/- ===================== tier lemmas (claims C5, C10) ===================== -/

/-- The Tier-1 loop stops at the first `NAME:` line of the window and
applies the acceptance test there. -/
lemma tier1Hit_eq_find :
    ∀ w : List (List Char), tier1Hit w = (w.find? isNameLine).map acceptName := by
  intro w
  induction w with
  | nil => rfl
  | cons l rest ih =>
    by_cases h : isNameLine l = true
    · rw [tier1Hit, if_pos h, List.find?_cons_of_pos _ h]
      rfl
    · rw [tier1Hit, if_neg h, List.find?_cons_of_neg _ h, ih]

/-- The Tier-2 loop is the first-hit search with the Tier-2 acceptance
test. -/
lemma tier2Hit_eq_findSome :
    ∀ w : List (List Char), tier2Hit w = w.findSome? tier2Accept := by
  intro w
  induction w with
  | nil => rfl
  | cons l rest ih =>
    by_cases h : (3 < (normalizeNameL l).length && isProbablePersonL (normalizeNameL l)) = true
    · rw [tier2Hit, if_pos h, List.findSome?_cons]
      rw [show tier2Accept l = some (normalizeNameL l) from by rw [tier2Accept, if_pos h]]
    · rw [tier2Hit, if_neg h, List.findSome?_cons]
      rw [show tier2Accept l = none from by rw [tier2Accept, if_neg h]]
      exact ih

/-- A Tier-2 hit is longer than 3 characters and passes the
probable-person test. -/
lemma tier2Hit_some (v : List (List Char)) (c : List Char)
    (h : tier2Hit v = some c) : 3 < c.length ∧ isProbablePersonL c = true := by
  induction v with
  | nil => exact absurd h (by rw [tier2Hit]; simp)
  | cons l rest ih =>
    rw [tier2Hit] at h
    by_cases hc : (3 < (normalizeNameL l).length && isProbablePersonL (normalizeNameL l)) = true
    · rw [if_pos hc] at h
      obtain ⟨h1, h2⟩ := (Bool.and_eq_true _ _).mp hc
      cases h
      exact ⟨by simpa using h1, h2⟩
    · rw [if_neg hc] at h
      exact ih h

/- ===================== claim C10 ===================== -/

/-- C10: the extraction thresholds.  Whenever Tier 1 accepts a signer,
the trimmed candidate after the `NAME:` colon was longer than 2
characters; whenever Tier 2 accepts a candidate, its normalized form is
longer than 3 characters; and the short name `A B` is never extracted
via Tier 2 even though it passes the probable-person test. -/
theorem c10_minimum_length_thresholds (w v : List (List Char)) (n c : List Char)
    (h1 : tier1Hit w = some (some n)) (h2 : tier2Hit v = some c) :
    (∃ l ∈ w, isNameLine l = true ∧ 2 < (trimL (colonField1 l)).length ∧
       n = normalizeNameL (trimL (colonField1 l))) ∧
    3 < c.length ∧ isProbablePersonL c = true ∧
    extractSignersFromText "BY:\nA B" = [] ∧
    isProbablePerson (normalizeName "A B") = true := by
  refine ⟨?_, (tier2Hit_some v c h2).1, (tier2Hit_some v c h2).2, by decide, by decide⟩
  rw [tier1Hit_eq_find] at h1
  cases hf : w.find? isNameLine with
  | none => rw [hf] at h1; exact absurd h1 (by simp)
  | some l =>
    rw [hf] at h1
    have ha : acceptName l = some n := by
      simpa using h1
    rw [acceptName] at ha
    by_cases hlen : 2 < (trimL (colonField1 l)).length
    · rw [if_pos hlen] at ha
      refine ⟨l, List.mem_of_find?_eq_some hf, List.find?_some hf, hlen, ?_⟩
      cases ha
      rfl
    · rw [if_neg hlen] at ha
      exact absurd ha (by simp)

/-- Witness for C10 at concrete windows: a `NAME: JOHN` line feeds
Tier 1, a `JOHN SMITH` line feeds Tier 2. -/
theorem c10_minimum_length_thresholds_witness :
    (∃ l ∈ [("NAME: JOHN".data : List Char)], isNameLine l = true ∧
       2 < (trimL (colonField1 l)).length ∧
       "JOHN".data = normalizeNameL (trimL (colonField1 l))) ∧
    3 < ("JOHN SMITH".data : List Char).length ∧
    isProbablePersonL "JOHN SMITH".data = true ∧
    extractSignersFromText "BY:\nA B" = [] ∧
    isProbablePerson (normalizeName "A B") = true :=
  c10_minimum_length_thresholds ["NAME: JOHN".data] ["JOHN SMITH".data]
    "JOHN".data "JOHN SMITH".data (by decide) (by decide)

/- ===================== claim C5 ===================== -/

/-- C5 counterexample: after the anchor `BY:` the first window line
whose normalization passes the probable-person test is `A B`, yet the
extracted signer is `JOHN SMITH` from the line below it — the Tier-2
scan skips every passing line of length at most 3, so it does not take
the first line passing the probable-person test, as the claim states. -/
theorem c5_counterexample_first_passing_line_skipped :
    extractSignersFromText "BY:\nA B\nJOHN SMITH" = ["JOHN SMITH"] ∧
    isProbablePerson (normalizeName "A B") = true ∧
    normalizeName "A B" ≠ "JOHN SMITH" := by
  refine ⟨by decide, by decide, by decide⟩

/-- C5 as amended: per `BY:` anchor with window `w` (the up-to-6
following lines), Tier 1 stops at the first `NAME:` line of the window
(case-insensitive, tolerating a space before the colon); its candidate
is the text between the first and second colon, trimmed, accepted —
normalized — exactly when longer than 2 characters; Tier 2 runs only
when Tier 1 accepted nothing and takes the first window line whose
normalization is longer than 3 characters and passes the probable-person
test; an anchor accepting no candidate contributes no signer. -/
theorem c5_amended_two_tier_per_anchor (w : List (List Char)) :
    anchorSigners w =
      match (w.find? isNameLine).map acceptName with
      | some (some n) => [n]
      | some none => (w.findSome? tier2Accept).toList
      | none => (w.findSome? tier2Accept).toList := by
  unfold anchorSigners
  rw [tier1Hit_eq_find, tier2Hit_eq_findSome]
  cases h : (w.find? isNameLine).map acceptName with
  | none => cases h2 : w.findSome? tier2Accept <;> rfl
  | some o =>
    cases o with
    | some n => rfl
    | none => cases h2 : w.findSome? tier2Accept <;> rfl

/- ===================== claim C6 ===================== -/

/-- C6 counterexample, both failing facets of the claim.  First, the
consequence clause fails: on the text `BY:` followed by
`Name: ABC Holdings LLC`, the Tier-1 path accepts the colon-field
candidate without ever consulting the probable-person filter, so
ABC Holdings LLC does become a Signer (in normalized form) although the
filter rejects it.  Second, the filter clause fails on raw strings:
`John<TAB>Smith` contains no entity term (in any letter case) and has
exactly 2 whitespace-separated tokens, so the claim makes
`isProbablePerson` accept it; the source splits on the space character
only, sees a single token, and rejects it. -/
theorem c6_counterexample_entity_signer_and_tab :
    extractSignersFromText "BY:\nName: ABC Holdings LLC" = ["ABC HOLDINGS LLC"] ∧
    isProbablePerson "ABC HOLDINGS LLC" = false ∧
    (wsTokens "John\tSmith".data).length = 2 ∧
    (entityTerms.all (fun t => !(containsSub t "John\tSmith".data))) = true ∧
    (entityTerms.all (fun t => !(containsSub t (upperL "John\tSmith".data)))) = true ∧
    isProbablePerson "John\tSmith" = false := by
  refine ⟨by decide, by decide, by decide, by decide, by decide, by decide⟩

/- ===================== normalization lemmas (claims C6, C7) ===================== -/

lemma upChar_uppercase : ∀ p ∈ upPairs, upChar p.2 = p.2 := by decide

lemma upChar_idem (c : Char) : upChar (upChar c) = upChar c := by
  cases h : upPairs.find? (fun p => p.1 == c) with
  | none => simp [upChar, h]
  | some p =>
    have hp : p ∈ upPairs := List.mem_of_find?_eq_some h
    have he : upChar c = p.2 := by simp [upChar, h]
    rw [he]
    exact upChar_uppercase p hp

/-- Adjacent whitespace characters never survive collapsing; this lists
the pair-freedom property as a Boolean predicate. -/
def noAdjWs : List Char → Bool
  | [] => true
  | [_] => true
  | a :: b :: rest => !(isWsChar a && isWsChar b) && noAdjWs (b :: rest)

lemma noAdjWs_tail {c : Char} {cs : List Char}
    (h : noAdjWs (c :: cs) = true) : noAdjWs cs = true := by
  cases cs with
  | nil => rfl
  | cons d ds => exact ((Bool.and_eq_true _ _).mp h).2

lemma mem_collapseWs :
    ∀ (b : Bool) (l : List Char) (c : Char), c ∈ collapseWs b l → c = ' ' ∨ c ∈ l := by
  intro b l
  induction l generalizing b with
  | nil => intro c hc; exact absurd hc (by simp [collapseWs])
  | cons d ds ih =>
    intro c hc
    rw [collapseWs] at hc
    by_cases hw : isWsChar d = true
    · rw [if_pos hw] at hc
      cases b with
      | true =>
        rcases ih true c hc with h | h
        · exact Or.inl h
        · exact Or.inr (List.mem_cons_of_mem d h)
      | false =>
        rcases List.mem_cons.mp hc with h | h
        · exact Or.inl h
        · rcases ih true c h with h2 | h2
          · exact Or.inl h2
          · exact Or.inr (List.mem_cons_of_mem d h2)
    · rw [if_neg hw] at hc
      rcases List.mem_cons.mp hc with h | h
      · exact Or.inr (h ▸ List.mem_cons_self d ds)
      · rcases ih false c h with h2 | h2
        · exact Or.inl h2
        · exact Or.inr (List.mem_cons_of_mem d h2)

lemma forall_mem_collapseWs {P : Char → Prop} (hsp : P ' ') (b : Bool)
    (l : List Char) (h : ∀ c ∈ l, P c) : ∀ c ∈ collapseWs b l, P c := by
  intro c hc
  rcases mem_collapseWs b l c hc with h2 | h2
  · exact h2 ▸ hsp
  · exact h c h2

lemma mem_trimRightL : ∀ (l : List Char) (c : Char), c ∈ trimRightL l → c ∈ l := by
  intro l
  induction l with
  | nil => intro c hc; exact absurd hc (by simp [trimRightL])
  | cons d ds ih =>
    intro c hc
    rw [trimRightL] at hc
    cases h2 : trimRightL ds with
    | nil =>
      rw [h2] at hc
      by_cases hw : isWsChar d = true
      · rw [if_pos hw] at hc; exact absurd hc (by simp)
      · rw [if_neg hw] at hc
        simp at hc
        exact hc ▸ List.mem_cons_self d ds
    | cons w ws =>
      rw [h2] at hc
      rcases List.mem_cons.mp hc with h | h
      · exact h ▸ List.mem_cons_self d ds
      · exact List.mem_cons_of_mem d (ih c (h2 ▸ h))

lemma mem_dropWhile (q : Char → Bool) :
    ∀ (l : List Char) (c : Char), c ∈ l.dropWhile q → c ∈ l := by
  intro l
  induction l with
  | nil => intro c hc; exact absurd hc (by simp)
  | cons d ds ih =>
    intro c hc
    rw [List.dropWhile_cons] at hc
    by_cases hq : q d = true
    · rw [if_pos hq] at hc
      exact List.mem_cons_of_mem d (ih c hc)
    · rw [if_neg hq] at hc
      exact hc

lemma collapseWs_wsSpace :
    ∀ (b : Bool) (l : List Char), ∀ c ∈ collapseWs b l, isWsChar c = true → c = ' ' := by
  intro b l
  induction l generalizing b with
  | nil => intro c hc; exact absurd hc (by simp [collapseWs])
  | cons d ds ih =>
    intro c hc
    rw [collapseWs] at hc
    by_cases hw : isWsChar d = true
    · rw [if_pos hw] at hc
      cases b with
      | true => exact ih true c hc
      | false =>
        rcases List.mem_cons.mp hc with h | h
        · intro _; exact h
        · exact ih true c h
    · rw [if_neg hw] at hc
      rcases List.mem_cons.mp hc with h | h
      · intro hcw; exact absurd (h ▸ hcw) (by simp [hw])
      · exact ih false c h

lemma headIsWs_collapseWs_true :
    ∀ l : List Char, headIsWs (collapseWs true l) = false := by
  intro l
  induction l with
  | nil => rfl
  | cons d ds ih =>
    rw [collapseWs]
    by_cases hw : isWsChar d = true
    · rw [if_pos hw]; exact ih
    · rw [if_neg hw]
      show isWsChar d = false
      exact Bool.not_eq_true _ ▸ (by simpa using hw)

lemma noAdjWs_cons (c : Char) (X : List Char) (hX : noAdjWs X = true)
    (hh : headIsWs X = false ∨ isWsChar c = false) : noAdjWs (c :: X) = true := by
  cases X with
  | nil => rfl
  | cons x xs =>
    show (!(isWsChar c && isWsChar x) && noAdjWs (x :: xs)) = true
    rw [hX, Bool.and_true]
    rcases hh with h | h
    · have : isWsChar x = false := h
      rw [this, Bool.and_false]
      rfl
    · rw [h, Bool.false_and]
      rfl

lemma collapseWs_noAdj : ∀ (b : Bool) (l : List Char), noAdjWs (collapseWs b l) = true := by
  intro b l
  induction l generalizing b with
  | nil => rfl
  | cons d ds ih =>
    rw [collapseWs]
    by_cases hw : isWsChar d = true
    · rw [if_pos hw]
      cases b with
      | true => exact ih true
      | false =>
        exact noAdjWs_cons ' ' _ (ih true) (Or.inl (headIsWs_collapseWs_true ds))
    · rw [if_neg hw]
      exact noAdjWs_cons d _ (ih false) (Or.inr (by simpa using hw))

lemma noAdjWs_dropWhile (q : Char → Bool) :
    ∀ l : List Char, noAdjWs l = true → noAdjWs (l.dropWhile q) = true := by
  intro l
  induction l with
  | nil => intro _; rfl
  | cons d ds ih =>
    intro h
    rw [List.dropWhile_cons]
    by_cases hq : q d = true
    · rw [if_pos hq]
      exact ih (noAdjWs_tail h)
    · rw [if_neg hq]
      exact h

lemma trimRightL_head? :
    ∀ l : List Char, trimRightL l = [] ∨ (trimRightL l).head? = l.head? := by
  intro l
  induction l with
  | nil => exact Or.inl rfl
  | cons d ds ih =>
    rw [trimRightL]
    cases h2 : trimRightL ds with
    | nil =>
      by_cases hw : isWsChar d = true
      · rw [if_pos hw]; exact Or.inl rfl
      · rw [if_neg hw]; exact Or.inr rfl
    | cons w ws => exact Or.inr rfl

lemma noAdjWs_trimRightL : ∀ l : List Char, noAdjWs l = true → noAdjWs (trimRightL l) = true := by
  intro l
  induction l with
  | nil => intro _; rfl
  | cons d ds ih =>
    intro h
    rw [trimRightL]
    cases h2 : trimRightL ds with
    | nil =>
      by_cases hw : isWsChar d = true
      · rw [if_pos hw]; rfl
      · rw [if_neg hw]; rfl
    | cons w ws =>
      have htl : noAdjWs (w :: ws) = true := h2 ▸ ih (noAdjWs_tail h)
      rcases trimRightL_head? ds with h3 | h3
      · rw [h2] at h3; exact absurd h3 (by simp)
      · rw [h2] at h3
        cases ds with
        | nil => simp [trimRightL] at h2
        | cons e es =>
          have hew : w = e := by
            have h4 : some w = some e := h3
            injection h4
          show (!(isWsChar d && isWsChar w) && noAdjWs (w :: ws)) = true
          rw [htl, Bool.and_true, hew]
          exact ((Bool.and_eq_true _ _).mp h).1

lemma headIsWs_trimLeftL : ∀ l : List Char, headIsWs (trimLeftL l) = false := by
  intro l
  induction l with
  | nil => rfl
  | cons d ds ih =>
    show headIsWs ((d :: ds).dropWhile isWsChar) = false
    rw [List.dropWhile_cons]
    by_cases hw : isWsChar d = true
    · rw [if_pos hw]; exact ih
    · rw [if_neg hw]
      show isWsChar d = false
      simpa using hw

lemma headIsWs_trimRightL (l : List Char) (h : headIsWs l = false) :
    headIsWs (trimRightL l) = false := by
  rcases trimRightL_head? l with h2 | h2
  · rw [h2]; rfl
  · cases l with
    | nil => rw [show trimRightL [] = [] from rfl]; rfl
    | cons d ds =>
      cases h3 : trimRightL (d :: ds) with
      | nil => rfl
      | cons w ws =>
        rw [h3] at h2
        have hw : w = d := by
          have h4 : some w = some d := h2
          injection h4
        show isWsChar w = false
        rw [hw]
        exact h

lemma trimRightL_idem : ∀ l : List Char, trimRightL (trimRightL l) = trimRightL l := by
  intro l
  induction l with
  | nil => rfl
  | cons d ds ih =>
    rw [trimRightL]
    cases h2 : trimRightL ds with
    | nil =>
      by_cases hw : isWsChar d = true
      · rw [if_pos hw]; rfl
      · rw [if_neg hw]
        show trimRightL [d] = [d]
        rw [trimRightL]
        rw [show trimRightL [] = [] from rfl]
        rw [if_neg hw]
    | cons w ws =>
      show trimRightL (d :: w :: ws) = d :: w :: ws
      rw [trimRightL]
      have : trimRightL (w :: ws) = w :: ws := by
        rw [← h2, ih]
      rw [this]

lemma upperL_eq_self (l : List Char) (h : ∀ c ∈ l, upChar c = c) : upperL l = l := by
  induction l with
  | nil => rfl
  | cons d ds ih =>
    show upChar d :: upperL ds = d :: ds
    rw [h d (List.mem_cons_self d ds), ih (fun c hc => h c (List.mem_cons_of_mem d hc))]

lemma filter_eq_self_of_all {q : Char → Bool} :
    ∀ l : List Char, (∀ c ∈ l, q c = true) → l.filter q = l := by
  intro l
  induction l with
  | nil => intro _; rfl
  | cons d ds ih =>
    intro h
    rw [List.filter_cons, if_pos (h d (List.mem_cons_self d ds))]
    rw [ih (fun c hc => h c (List.mem_cons_of_mem d hc))]

lemma dropWhileWs_eq_self (l : List Char) (h : headIsWs l = false) :
    l.dropWhile isWsChar = l := by
  cases l with
  | nil => rfl
  | cons d ds =>
    rw [List.dropWhile_cons, if_neg (by simp [show isWsChar d = false from h])]

lemma collapseWs_eq_self :
    ∀ (l : List Char) (b : Bool), (∀ c ∈ l, isWsChar c = true → c = ' ') →
      noAdjWs l = true → (b = true → headIsWs l = false) → collapseWs b l = l := by
  intro l
  induction l with
  | nil => intro b _ _ _; rfl
  | cons d ds ih =>
    intro b hW hA hb
    rw [collapseWs]
    by_cases hw : isWsChar d = true
    · have hd : d = ' ' := hW d (List.mem_cons_self d ds) hw
      have hbf : b = false := by
        cases b with
        | false => rfl
        | true =>
          have := hb rfl
          rw [show headIsWs (d :: ds) = isWsChar d from rfl, hw] at this
          exact absurd this (by simp)
      subst hbf
      rw [if_pos hw, if_neg (by simp : ¬ (false = true))]
      have hcs : headIsWs ds = false := by
        cases ds with
        | nil => rfl
        | cons e es =>
          have h1 := ((Bool.and_eq_true _ _).mp hA).1
          show isWsChar e = false
          cases hwe : isWsChar e with
          | false => rfl
          | true =>
            rw [hw, hwe] at h1
            exact absurd h1 (by simp)
      rw [ih true (fun c hc => hW c (List.mem_cons_of_mem d hc))
            (noAdjWs_tail hA) (fun _ => hcs)]
      rw [hd]
    · rw [if_neg hw]
      rw [ih false (fun c hc => hW c (List.mem_cons_of_mem d hc))
            (noAdjWs_tail hA) (by intro h3; exact absurd h3 (by simp))]

/-- Every character of a normalized name is fixed by uppercasing. -/
lemma norm_upFixed (l : List Char) : ∀ c ∈ normalizeNameL l, upChar c = c := by
  intro c hc
  have h1 : c ∈ collapseWs false ((upperL l).filter notPunct) :=
    mem_dropWhile isWsChar _ c (mem_trimRightL _ c hc)
  rcases mem_collapseWs false _ c h1 with h2 | h2
  · rw [h2]; decide
  · have h3 : c ∈ upperL l := List.mem_of_mem_filter h2
    rcases List.mem_map.mp h3 with ⟨x, _, hx⟩
    rw [← hx]
    exact upChar_idem x

/-- A normalized name holds no period and no comma. -/
lemma norm_noPunct (l : List Char) : ∀ c ∈ normalizeNameL l, notPunct c = true := by
  intro c hc
  have h1 : c ∈ collapseWs false ((upperL l).filter notPunct) :=
    mem_dropWhile isWsChar _ c (mem_trimRightL _ c hc)
  rcases mem_collapseWs false _ c h1 with h2 | h2
  · rw [h2]; decide
  · exact List.of_mem_filter h2

/-- Every whitespace character of a normalized name is a space. -/
lemma norm_wsSpace (l : List Char) :
    ∀ c ∈ normalizeNameL l, isWsChar c = true → c = ' ' := by
  intro c hc
  have h1 : c ∈ collapseWs false ((upperL l).filter notPunct) :=
    mem_dropWhile isWsChar _ c (mem_trimRightL _ c hc)
  exact collapseWs_wsSpace false _ c h1

/-- A normalized name has no two adjacent whitespace characters. -/
lemma norm_noAdj (l : List Char) : noAdjWs (normalizeNameL l) = true :=
  noAdjWs_trimRightL _ (noAdjWs_dropWhile isWsChar _ (collapseWs_noAdj false _))

/-- A normalized name does not start with whitespace. -/
lemma norm_head (l : List Char) : headIsWs (normalizeNameL l) = false :=
  headIsWs_trimRightL _ (headIsWs_trimLeftL _)

/-- A normalized name does not end with whitespace. -/
lemma norm_trimRight (l : List Char) :
    trimRightL (normalizeNameL l) = normalizeNameL l :=
  trimRightL_idem _

/-- Normalization is the identity on lists having all the shape
properties of its image. -/
lemma normalizeNameL_eq_self (l : List Char)
    (hU : ∀ c ∈ l, upChar c = c) (hP : ∀ c ∈ l, notPunct c = true)
    (hW : ∀ c ∈ l, isWsChar c = true → c = ' ')
    (hA : noAdjWs l = true) (hH : headIsWs l = false)
    (hT : trimRightL l = l) : normalizeNameL l = l := by
  unfold normalizeNameL
  rw [upperL_eq_self l hU, filter_eq_self_of_all l hP]
  rw [collapseWs_eq_self l false hW hA (by intro h; exact absurd h (by simp))]
  show trimRightL (l.dropWhile isWsChar) = l
  rw [dropWhileWs_eq_self l hH, hT]

lemma normalizeNameL_idem (l : List Char) :
    normalizeNameL (normalizeNameL l) = normalizeNameL l :=
  normalizeNameL_eq_self _ (norm_upFixed l) (norm_noPunct l) (norm_wsSpace l)
    (norm_noAdj l) (norm_head l) (norm_trimRight l)

/- ===================== claim C7 ===================== -/

/-- C7: `normalizeName` is idempotent on every string, it is total by
construction (a pure function of the character list), and the empty
string normalizes to the empty string. -/
theorem c7_normalize_idempotent_total (s : String) :
    normalizeName (normalizeName s) = normalizeName s ∧ normalizeName "" = "" := by
  constructor
  · show (⟨normalizeNameL (normalizeNameL s.data)⟩ : String) = ⟨normalizeNameL s.data⟩
    rw [normalizeNameL_idem]
  · rfl

/- ===================== claim C6 (amended) ===================== -/

lemma splitBy_ws_eq_space :
    ∀ l : List Char, (∀ c ∈ l, isWsChar c = true → c = ' ') →
      splitBy isWsChar l = splitBy (fun c => c == ' ') l := by
  intro l
  induction l with
  | nil => intro _; rfl
  | cons d ds ih =>
    intro h
    have hds := ih (fun c hc => h c (List.mem_cons_of_mem d hc))
    have hd : isWsChar d = (d == ' ') := by
      by_cases hw : isWsChar d = true
      · rw [hw, h d (List.mem_cons_self d ds) hw]
        rfl
      · have hw2 : isWsChar d = false := by simpa using hw
        rw [hw2]
        cases hsp : d == ' ' with
        | false => rfl
        | true =>
          have : d = ' ' := by simpa using hsp
          rw [this] at hw2
          exact absurd hw2 (by decide)
    rw [splitBy, splitBy, hds, hd]

/-- C6 as amended.  Filter level: on normalized candidate strings — the
only inputs the extraction pipeline feeds to the filter — the claim
holds as stated: `isProbablePerson` returns false when the string
contains an entity term as a substring, and otherwise returns true iff
the whitespace-split non-empty token count is between 2 and 4 (on
arbitrary raw strings the source tests the entity terms against the
uppercased string and splits on the space character only); the filter
rejects ABC Holdings LLC and accepts John Smith.  Pipeline level: every
Tier-2 hit passes the filter, so ABC HOLDINGS LLC never becomes a
Signer through the Tier-2 probable-person path — but it can still
become a Signer through an explicit Tier-1 NAME: field, which never
consults the filter. -/
theorem c6_amended_probable_person (s : String) (hn : normalizeName s = s) :
    isProbablePerson s =
      (!(entityTerms.any (fun t => containsSub t s.data)) &&
        (2 ≤ (wsTokens s.data).length && (wsTokens s.data).length ≤ 4)) ∧
    isProbablePerson "ABC Holdings LLC" = false ∧
    isProbablePerson "John Smith" = true ∧
    (∀ v : List (List Char), Option.all isProbablePersonL (tier2Hit v) = true) ∧
    (∀ v : List (List Char), tier2Hit v ≠ some ("ABC HOLDINGS LLC".data)) ∧
    extractSignersFromText "BY:\nName: ABC Holdings LLC" = ["ABC HOLDINGS LLC"] := by
  refine ⟨?_, by decide, by decide, ?_, ?_, by decide⟩
  · have hdata : normalizeNameL s.data = s.data := congrArg String.data hn
    have hU : ∀ c ∈ s.data, upChar c = c := by rw [← hdata]; exact norm_upFixed s.data
    have hW : ∀ c ∈ s.data, isWsChar c = true → c = ' ' := by
      rw [← hdata]; exact norm_wsSpace s.data
    have hup : upperL s.data = s.data := upperL_eq_self s.data hU
    have htok : wsTokens s.data = spaceTokens s.data := by
      unfold wsTokens spaceTokens
      rw [splitBy_ws_eq_space s.data hW]
    show isProbablePersonL s.data = _
    rw [isProbablePersonL, hup]
    by_cases hent : entityTerms.any (fun t => containsSub t s.data) = true
    · rw [if_pos hent, hent]
      rfl
    · have hent2 : entityTerms.any (fun t => containsSub t s.data) = false := by
        simpa using hent
      rw [if_neg hent, hent2, htok]
      rfl
  · intro v
    cases h : tier2Hit v with
    | none => rfl
    | some c =>
      show isProbablePersonL c = true
      exact (tier2Hit_some v c h).2
  · intro v h
    have := (tier2Hit_some v _ h).2
    exact absurd this (by decide)

/-- Witness for C6 (amended): the filter equation at the concrete
normalized candidate `JOHN SMITH`, the concrete filter verdicts, the
Tier-2 exclusion applied at a concrete window holding the entity name,
and the Tier-1 bypass. -/
theorem c6_amended_probable_person_witness :
    isProbablePerson "JOHN SMITH" =
      (!(entityTerms.any (fun t => containsSub t "JOHN SMITH".data)) &&
        (2 ≤ (wsTokens "JOHN SMITH".data).length &&
         (wsTokens "JOHN SMITH".data).length ≤ 4)) ∧
    isProbablePerson "ABC Holdings LLC" = false ∧
    isProbablePerson "John Smith" = true ∧
    Option.all isProbablePersonL (tier2Hit [("ABC Holdings LLC".data : List Char)]) = true ∧
    tier2Hit [("ABC Holdings LLC".data : List Char)] ≠ some ("ABC HOLDINGS LLC".data) ∧
    extractSignersFromText "BY:\nName: ABC Holdings LLC" = ["ABC HOLDINGS LLC"] := by
  obtain ⟨h1, h2, h3, h4, h5, h6⟩ := c6_amended_probable_person "JOHN SMITH" (by decide)
  exact ⟨h1, h2, h3, h4 [("ABC Holdings LLC".data : List Char)],
    h5 [("ABC Holdings LLC".data : List Char)], h6⟩

end EmmaNeigh
